import Mathlib

/-!
Verification development for the Cantonese Braille / Jyutping transliterator
in `src/b2j.js` (the canonical module: the first `parseCantoneseBraille`,
`rom2jp`, `jp2rom`, `parseJyutpingToBraille` definitions of that file).

The JavaScript code is shallowly embedded over `List Char`.  JavaScript
strings are modelled as `List Char` (code-point sequences, matching how the
source iterates strings with `Array.from` / spread), JavaScript objects used
as string-keyed dictionaries are modelled as association lists in literal
insertion order, and each regular expression used by the source is modelled
by a hand-translated scanner implementing the exact backtracking semantics
of that one pattern.  `String.toUpperCase` / `String.toLowerCase` are
modelled on the ASCII range (the only range relevant to the tables and all
inputs considered here).  Loops that do not recurse structurally take a fuel
argument; the callers pass the input length as fuel, and termination of the
original loop is proved as fuel-irrelevance.
-/

set_option maxRecDepth 40000

namespace B2J

/-! ### JavaScript character classes -/

/-- The JavaScript `\s` class (WhiteSpace plus LineTerminator). -/
def isJsWs (c : Char) : Bool :=
  c = '\t' || c = '\n' || c = Char.ofNat 11 || c = Char.ofNat 12 || c = '\r' || c = ' ' ||
  c = Char.ofNat 0xA0 || c = Char.ofNat 0x1680 ||
  (0x2000 ≤ c.toNat && c.toNat ≤ 0x200A) ||
  c = Char.ofNat 0x2028 || c = Char.ofNat 0x2029 || c = Char.ofNat 0x202F ||
  c = Char.ofNat 0x205F || c = Char.ofNat 0x3000 || c = Char.ofNat 0xFEFF

/-- JavaScript line terminators (what `.` excludes and multiline `^`/`$` anchor around). -/
def isLineTerm (c : Char) : Bool :=
  c = '\n' || c = '\r' || c = Char.ofNat 0x2028 || c = Char.ofNat 0x2029

/-- The JavaScript `\d` class. -/
def jsIsDigit (c : Char) : Bool := '0' ≤ c && c ≤ '9'

/-- `[a-z]` under the `i` flag, i.e. `[a-zA-Z]`. -/
def isAsciiAlpha (c : Char) : Bool := ('a' ≤ c && c ≤ 'z') || ('A' ≤ c && c ≤ 'Z')

/-- The literal `[a-z]` class (no flag). -/
def isLowerAlpha (c : Char) : Bool := 'a' ≤ c && c ≤ 'z'

/-- The `[⠀-⠿]` class used by the encoder's final cleanup. -/
def isBrailleCell (c : Char) : Bool := 0x2800 ≤ c.toNat && c.toNat ≤ 0x283F

/-- `String.toUpperCase`, restricted to the ASCII letters (the only
characters the Braille-ASCII table lookup can be affected by). -/
def toUpperAscii (c : Char) : Char :=
  match c with
  | 'a' => 'A' | 'b' => 'B' | 'c' => 'C' | 'd' => 'D' | 'e' => 'E' | 'f' => 'F'
  | 'g' => 'G' | 'h' => 'H' | 'i' => 'I' | 'j' => 'J' | 'k' => 'K' | 'l' => 'L'
  | 'm' => 'M' | 'n' => 'N' | 'o' => 'O' | 'p' => 'P' | 'q' => 'Q' | 'r' => 'R'
  | 's' => 'S' | 't' => 'T' | 'u' => 'U' | 'v' => 'V' | 'w' => 'W' | 'x' => 'X'
  | 'y' => 'Y' | 'z' => 'Z'
  | _ => c

/-- `String.toLowerCase`, restricted to the ASCII letters. -/
def toLowerAscii (c : Char) : Char :=
  match c with
  | 'A' => 'a' | 'B' => 'b' | 'C' => 'c' | 'D' => 'd' | 'E' => 'e' | 'F' => 'f'
  | 'G' => 'g' | 'H' => 'h' | 'I' => 'i' | 'J' => 'j' | 'K' => 'k' | 'L' => 'l'
  | 'M' => 'm' | 'N' => 'n' | 'O' => 'o' | 'P' => 'p' | 'Q' => 'q' | 'R' => 'r'
  | 'S' => 's' | 'T' => 't' | 'U' => 'u' | 'V' => 'v' | 'W' => 'w' | 'X' => 'x'
  | 'Y' => 'y' | 'Z' => 'z'
  | _ => c

/-! ### The symbol tables (literal enumerations from src/b2j.js, in source order) -/

def initialMap : List (String × String) :=
  [("⠏", "b"), ("⠯", "p"), ("⠍", "m"), ("⠋", "f"),
   ("⠞", "d"), ("⠾", "t"), ("⠝", "n"), ("⠇", "l"),
   ("⠅", "g"), ("⠗", "k"), ("⠛", "ng"), ("⠓", "h"),
   ("⠟", "gw"), ("⠻", "kw"), ("⠺", "w"),
   ("⠉", "z"), ("⠭", "c"), ("⠎", "s"), ("⠚", "j")]

def finalMap : List (String × String) :=
  [("⠃", "aa"), ("⠬", "aai"), ("⠌", "aau"), ("⠜", "aam"), ("⠘", "aan"),
   ("⠉", "aang"), ("⠏", "aap"), ("⠞", "aat"), ("⠅", "aak"),
   ("⠩", "ai"), ("⠡", "au"), ("⠸", "am"), ("⠫", "an"), ("⠛", "ang"),
   ("⠢", "ap"), ("⠔", "at"), ("⠨", "ak"),
   ("⠑", "e"), ("⠓", "ei"), ("⠶", "eng"), ("⠺", "ek"),
   ("⠙", "sz"), ("⠊", "i"), ("⠽", "iu"), ("⠖", "im"), ("⠲", "in"),
   ("⠴", "ing"), ("⠯", "ip"), ("⠾", "it"), ("⠗", "ik"),
   ("⠕", "o"), ("⠣", "oi"), ("⠧", "ou"), ("⠇", "om"), ("⠝", "on"),
   ("⠰", "ong"), ("⠍", "op"), ("⠋", "ot"), ("⠻", "ok"),
   ("⠥", "u"), ("⠳", "ui"), ("⠮", "un"), ("⠦", "ung"), ("⠵", "ut"), ("⠟", "uk"),
   ("⠱", "oe"), ("⠚", "eoi"), ("⠎", "eon"), ("⠒", "oeng"), ("⠭", "eot"), ("⠪", "oek"),
   ("⠹", "yu"), ("⠆", "yun"), ("⠷", "yut")]

def toneMap : List (String × String) :=
  [("⠀", "1"), ("⠁", "2"), ("⠈", "3"), ("⠄", "4"), ("⠠", "5"), ("⠂", "6"), ("⠐", "3")]

def numberMap : List (String × String) :=
  [("⠁", "1"), ("⠃", "2"), ("⠉", "3"), ("⠙", "4"), ("⠑", "5"),
   ("⠋", "6"), ("⠛", "7"), ("⠓", "8"), ("⠊", "9"), ("⠚", "0"),
   ("⠀", " ")]

def punctuationMap : List (String × String) :=
  [("⠿", "。"), ("⠿⠀", "。"), ("⠤", "，"), ("⠘", "、"), ("⠰⠆", "‧"),
   ("⠦⠀", "？"), ("⠮⠀", "！"), ("⠒⠀", "："), ("⠢⠀", "；"),
   ("⠤⠄", "-"), ("⠤⠤", "—"), ("⠄⠄⠄", "…"), ("⠀⠄⠄⠄⠀", "…"),
   ("⠀⠶", "（"), ("⠶⠀", "）"), ("⠀⠠⠶", "［"), ("⠶⠄⠀", "］"),
   ("⠀⠣", "《"), ("⠜⠀", "》"), ("⠀⠠⠣", "〈"), ("⠜⠄⠀", "〉"),
   ("⠀⠦", "「"), ("⠴⠀", "」"), ("⠀⠠⠦", "『"), ("⠴⠄⠀", "』"),
   ("⠀⠷", "「"), ("⠻⠀", "」"), ("⠀⠸", "**"), ("⠵⠀", "**")]

/-! ### Object lookup and the derived reverse tables -/

/-- Property read on a string-keyed object literal (keys are unique within
each forward table, and the reverse tables are built by `jsAssign`, which
keeps keys unique, so first-match lookup is exact). -/
def jsGet (m : List (String × String)) (k : List Char) : Option (List Char) :=
  (m.find? (fun kv => kv.1.data == k)).map (fun kv => kv.2.data)

/-- A JavaScript property assignment `obj[k] = v`: overwrite if present,
append otherwise. -/
def jsAssign (obj : List (String × String)) (k v : String) : List (String × String) :=
  if obj.any (fun kv => kv.1 == k) then
    obj.map (fun kv => if kv.1 == k then (k, v) else kv)
  else obj ++ [(k, v)]

/-- `Object.entries(m).forEach(([braille, sym]) => { rev[sym] = braille })`. -/
def buildReverse (m : List (String × String)) : List (String × String) :=
  m.foldl (fun obj kv => jsAssign obj kv.2 kv.1) []

def reverseInitialMap : List (String × String) := buildReverse initialMap
def reverseFinalMap : List (String × String) := buildReverse finalMap
def reverseToneMap : List (String × String) := buildReverse toneMap
def reverseNumberMap : List (String × String) := buildReverse numberMap
def reversePunctuationMap : List (String × String) := buildReverse punctuationMap

/-! ### Braille-ASCII preprocessing of the decoder -/

/-- The 64-character Braille-ASCII ordering string from `parseCantoneseBraille`. -/
def brailleAsciiOrder : List Char :=
  (" A1B'K2L@CIF/MSP\"E3H9O6R^DJG>NTQ,*5<-U8V.%[$+X!&;:4\\0Z7(_?W]#Y)=").data

/-- One character of `Array.from(brailleString.toUpperCase(), ch => ...)`:
uppercase, then replace a Braille-ASCII character by the braille cell at
`0x2800 +` its index in the ordering string. -/
def translitChar (c : Char) : Char :=
  let u := toUpperAscii c
  match brailleAsciiOrder.findIdx? (fun x => x == u) with
  | some n => Char.ofNat (0x2800 + n)
  | none => u

/-! ### The decoder's scanning loop -/

/-- One loop iteration's result: emitted text, remaining cells, number mode. -/
structure StepOut where
  out : List Char
  rest : List Char
  num : Bool
deriving DecidableEq

/-- `if (i < chars.length) romanization += ' '` after a consumed unit. -/
def sepIf (l : List Char) : List Char := if l.isEmpty then [] else [' ']

/-- The decoder's tone-mark scan after a consumed initial/final (single tone
cell, or the `'⠠'`-led compound lookup; `toneMap` has no two-character keys,
so the compound arm never fires, but it is kept as in the source). -/
def toneScan : List Char → List Char × List Char
  | [] => ("1".data, [])
  | t :: l2 =>
    match jsGet toneMap [t] with
    | some v => (v, l2)
    | none =>
      if t = '⠠' then
        match l2 with
        | u :: l3 =>
          match jsGet toneMap [t, u] with
          | some v => (v, l3)
          | none => ("1".data, t :: u :: l3)
        | [] => ("1".data, [t])
      else ("1".data, t :: l2)

/-- Lines 372-390 of the source: epenthetic `j`/`w` for initial-less
syllables, the `ang`(tone 4/5/6) to `ng` and `op` to `m` rewrites, then
serialization as `initial ++ final ++ tone`. -/
def emitSyllable (initial0 final0 tone : List Char) : List Char :=
  if initial0 = [] then
    let ini :=
      if (final0.head? == some 'y' || final0.head? == some 'i')
          && final0 ≠ "ik".data && final0 ≠ "ing".data then "j".data
      else if final0.head? == some 'u' && final0 ≠ "uk".data && final0 ≠ "ung".data then "w".data
      else initial0
    let fin :=
      if final0 = "ang".data && (tone = "4".data || tone = "5".data || tone = "6".data)
      then "ng".data else final0
    let fin := if fin = "op".data then "m".data else fin
    ini ++ fin ++ tone
  else initial0 ++ final0 ++ tone

def isInit (c : Char) : Bool := (jsGet initialMap [c]).isSome
def isFin (c : Char) : Bool := (jsGet finalMap [c]).isSome

/-- One iteration of the decoder's `while` loop (lines 181-396).  Branches in
source order: number prefix, number-mode digit, number-mode reset,
punctuation windows of 5/3/2/1 cells, initial+final, bare final,
initial-without-final (whose two inner re-checks of `finalMap[char2]` and
`finalMap[char1]` are unreachable there, because the initial+final and bare
final branches have already failed, leaving its literal-passthrough arm),
blank cell, and literal passthrough. -/
def scanStep (l : List Char) (inNum : Bool) : StepOut :=
  match l with
  | [] => ⟨[], [], inNum⟩
  | c1 :: rest =>
    if c1 = '⠼' then ⟨[], rest, true⟩
    else if inNum && (jsGet numberMap [c1]).isSome then
      ⟨(jsGet numberMap [c1]).getD [],
       rest,
       match rest with
       | [] => false
       | c :: _ => if (jsGet numberMap [c]).isNone && c ≠ '⠼' then false else true⟩
    else
      let nm := if inNum && (jsGet numberMap [c1]).isNone && c1 ≠ '⠼' then false else inNum
      match jsGet punctuationMap (c1 :: rest.take 4) with
      | some v => ⟨v ++ sepIf (rest.drop 4), rest.drop 4, nm⟩
      | none =>
      match jsGet punctuationMap (c1 :: rest.take 2) with
      | some v => ⟨v ++ sepIf (rest.drop 2), rest.drop 2, nm⟩
      | none =>
      match jsGet punctuationMap (c1 :: rest.take 1) with
      | some v => ⟨v ++ sepIf (rest.drop 1), rest.drop 1, nm⟩
      | none =>
      match jsGet punctuationMap [c1] with
      | some v => ⟨v ++ sepIf rest, rest, nm⟩
      | none =>
        if isInit c1 && (match rest.head? with | some c2 => isFin c2 | none => false) then
          match rest with
          | c2 :: rest2 =>
            let tr := toneScan rest2
            ⟨emitSyllable ((jsGet initialMap [c1]).getD []) ((jsGet finalMap [c2]).getD [])
                tr.1 ++ sepIf tr.2, tr.2, nm⟩
          | [] => ⟨[], [], nm⟩
        else if isFin c1 then
          let tr := toneScan rest
          ⟨emitSyllable [] ((jsGet finalMap [c1]).getD []) tr.1 ++ sepIf tr.2, tr.2, nm⟩
        else if isInit c1 && !rest.isEmpty then
          ⟨c1 :: sepIf rest, rest, nm⟩
        else if c1 = '⠀' then ⟨[' '], rest, nm⟩
        else ⟨c1 :: sepIf rest, rest, nm⟩

/-- The decoder's scanning loop, fuel-indexed.  Every iteration consumes at
least one cell, so fuel equal to the input length suffices (proved below as
`scanGo_stable`). -/
def scanGo : Nat → List Char → Bool → List Char
  | _, [], _ => []
  | 0, _ :: _, _ => []
  | fuel + 1, c1 :: rest, m =>
    let s := scanStep (c1 :: rest) m
    s.out ++ scanGo fuel s.rest s.num

/-! ### The regex passes -/

/-- Global replacement of a literal pattern (the `p4`/`t4`/`k4` and
`p6`/`t6`/`k6` passes): leftmost, non-overlapping. -/
def replaceLitGo (pat rep : List Char) : Nat → List Char → List Char
  | _, [] => []
  | 0, s => s
  | fuel + 1, c :: t =>
    if pat.isPrefixOf (c :: t) then rep ++ replaceLitGo pat rep fuel ((c :: t).drop pat.length)
    else c :: replaceLitGo pat rep fuel t

def replaceLit (pat rep s : List Char) : List Char := replaceLitGo pat rep s.length s

/-- `rom2jp`: `.replace(/p4/g,'p6').replace(/t4/g,'t6').replace(/k4/g,'k6')`. -/
def rom2jpL (s : List Char) : List Char :=
  replaceLit "k4".data "k6".data (replaceLit "t4".data "t6".data (replaceLit "p4".data "p6".data s))

/-- `result.replace(/j(y|i(?!k|ng))/g, '$1')`: drop a `j` before `y`, or
before an `i` not followed by `k` or `ng`. -/
def jStrip : List Char → List Char
  | [] => []
  | 'j' :: 'y' :: t => 'y' :: jStrip t
  | 'j' :: 'i' :: t =>
    if t.head? == some 'k' || t.take 2 = ['n', 'g'] then 'j' :: 'i' :: jStrip t
    else 'i' :: jStrip t
  | c :: rest => c :: jStrip rest

/-- `result.replace(/w(u(?!k|ng))/g, '$1')`: drop a `w` before a `u` not
followed by `k` or `ng`. -/
def wStrip : List Char → List Char
  | [] => []
  | 'w' :: 'u' :: t =>
    if t.head? == some 'k' || t.take 2 = ['n', 'g'] then 'w' :: 'u' :: wStrip t
    else 'u' :: wStrip t
  | c :: rest => c :: wStrip rest

def prevIsLower (p : Option Char) : Bool :=
  match p with
  | some c => isLowerAlpha c
  | none => false

/-- `result.replace(/(?<![a-z])ng(?=\d)/g, 'ang')`; `prev` is the character
before the scan position in the original string. -/
def ngRewriteAux : Option Char → List Char → List Char
  | _, [] => []
  | prev, 'n' :: 'g' :: t2 =>
    if !prevIsLower prev && (t2.head?.map jsIsDigit).getD false then
      'a' :: 'n' :: 'g' :: ngRewriteAux (some 'g') t2
    else 'n' :: 'g' :: ngRewriteAux (some 'g') t2
  | _, c :: t => c :: ngRewriteAux (some c) t

def ngRewrite (s : List Char) : List Char := ngRewriteAux none s

/-- `result.replace(/(?<![a-z])m(?=\d)/g, 'op')`. -/
def mRewriteAux : Option Char → List Char → List Char
  | _, [] => []
  | prev, 'm' :: t =>
    if !prevIsLower prev && (t.head?.map jsIsDigit).getD false then
      'o' :: 'p' :: mRewriteAux (some 'm') t
    else 'm' :: mRewriteAux (some 'm') t
  | _, c :: t => c :: mRewriteAux (some c) t

def mRewrite (s : List Char) : List Char := mRewriteAux none s

/-- `String.prototype.trim`. -/
def trimJsL (s : List Char) : List Char :=
  ((s.dropWhile isJsWs).reverse.dropWhile isJsWs).reverse

/-- `jp2rom` (lines 413-428): undo the checked-tone rewrite, strip epenthetic
`j`/`w`, restore the syllabic `ng`/`m` finals, then trim. -/
def jp2romL (s : List Char) : List Char :=
  trimJsL (mRewrite (ngRewrite (wStrip (jStrip
    (replaceLit "k6".data "k4".data
      (replaceLit "t6".data "t4".data (replaceLit "p6".data "p4".data s)))))))

/-! ### The final `s.replace(/^\s*(.*)\s*$/gm, ...)` pass

At a position where multiline `^` holds, the pattern deterministically
matches: the first `\s*` greedily takes the maximal whitespace run `a`
(terminators included); `(.*)` takes the maximal terminator-free run `b`;
the second `\s*` takes the longest whitespace extension after which `$`
holds, i.e. up to the end of the string if the whitespace runs to the end,
and otherwise up to (not including) the last line terminator inside that
whitespace run.  Neither earlier star ever backtracks, because the choice
`c = 0` already satisfies `$` (after a maximal terminator-free run the
scanner sits at a terminator or at the end).  The match is replaced by the
image of group 1; an unconsumed terminator is copied through, and the
position after it is again a line start. -/

/-- Index (within `v.take w`) of the last line terminator, as the length of
the second `\s*`; `0` when there is none. -/
def lastTermBefore (v : List Char) (w : Nat) : Nat :=
  match ((v.take w).reverse).findIdx? isLineTerm with
  | some k => w - 1 - k
  | none => 0

/-- One match of `/^\s*(.*)\s*$/m` at a line-start position: group 1, a
flag saying whether the position right after the match is again a line
start (its preceding character was a consumed terminator), and the
unconsumed remainder. -/
def trimStep (u : List Char) : List Char × Bool × List Char :=
  let a := (u.takeWhile isJsWs).length
  let b := ((u.drop a).takeWhile (fun c => !isLineTerm c)).length
  let g := (u.drop a).take b
  let v := u.drop (a + b)
  let w := (v.takeWhile isJsWs).length
  let c := if w = v.length then w else lastTermBefore v w
  (g, (((v.take c).getLast?).map isLineTerm).getD false, v.drop c)

/-- All matches of `/^\s*(.*)\s*$/gm` with each group-1 image under `rep`,
starting at a line-start position.  When the next position is not itself a
line start, the terminator there is copied through and scanning resumes
after it. -/
def trimGo (rep : List Char → List Char) : Nat → List Char → List Char
  | 0, _ => []
  | _, [] => []
  | fuel + 1, u =>
    let s := trimStep u
    match s.2.2 with
    | [] => rep s.1
    | t :: r2 =>
      if s.2.1 then rep s.1 ++ trimGo rep fuel (t :: r2)
      else rep s.1 ++ t :: trimGo rep fuel r2

/-- The lines of a string, split at JavaScript line terminators. -/
def linesOf : List Char → List (List Char)
  | [] => [[]]
  | c :: t =>
    let r := linesOf t
    if isLineTerm c then [] :: r
    else
      match r with
      | [] => [[c]]
      | l :: ls => (c :: l) :: ls

/-- `line.replace(/(?<=[⠀-⠿])\s+(?=[⠀-⠿])/g, '')`: remove a whitespace run
that sits between two braille cells.  The greedy `\s+` only matches the full
run (a shorter take leaves whitespace where the lookahead wants a cell), and
positions inside a run fail the lookbehind, so scanning is run-at-a-time. -/
def squeezeWsGo : Nat → Bool → List Char → List Char
  | _, _, [] => []
  | 0, _, s => s
  | fuel + 1, prevB, c :: t =>
    if isJsWs c && prevB then
      match (c :: t).dropWhile isJsWs with
      | [] => c :: squeezeWsGo fuel false t
      | b :: r2 =>
        if isBrailleCell b then squeezeWsGo fuel false (b :: r2)
        else c :: squeezeWsGo fuel false t
    else c :: squeezeWsGo fuel (isBrailleCell c) t

def squeezeWs (l : List Char) : List Char := squeezeWsGo l.length false l

/-! ### The decoder and encoder entry points -/

/-- `parseCantoneseBraille` on character lists: Braille-ASCII preprocessing,
the scanning loop, `rom2jp`, then the per-line-anchored trim pass. -/
def parseCantoneseBrailleL (s : List Char) : List Char :=
  let chars := s.map translitChar
  let rom := rom2jpL (scanGo chars.length chars false)
  trimGo (fun g => g) rom.length rom

def parseCantoneseBraille (s : String) : String := String.mk (parseCantoneseBrailleL s.data)

def rom2jp (s : String) : String := String.mk (rom2jpL s.data)

def jp2rom (s : String) : String := String.mk (jp2romL s.data)

/-- `jyutpingString.match(/([a-z]*\d|\S|\s+)/gi)`: at each position, a
(possibly empty) maximal ASCII-letter run followed by a digit; otherwise one
non-whitespace character; otherwise a maximal whitespace run. -/
def tokenizeJs : Nat → List Char → List (List Char)
  | _, [] => []
  | 0, _ :: _ => []
  | fuel + 1, c :: t =>
    let s := c :: t
    let r := (s.takeWhile isAsciiAlpha).length
    if ((s.drop r).head?.map jsIsDigit).getD false then
      s.take (r + 1) :: tokenizeJs fuel (s.drop (r + 1))
    else if !isJsWs c then
      [c] :: tokenizeJs fuel t
    else
      s.takeWhile isJsWs :: tokenizeJs fuel (s.dropWhile isJsWs)

def isVowelY (c : Char) : Bool :=
  c = 'a' || c = 'e' || c = 'i' || c = 'o' || c = 'u' || c = 'y'

/-- The class `[bcdfghjklmnpqrstvwxyz]`. -/
def isConsonantClass (c : Char) : Bool :=
  isLowerAlpha c && !(c = 'a' || c = 'e' || c = 'i' || c = 'o' || c = 'u')

/-- The tail `([aeiouy][a-z]*)(\d)$` of the syllable pattern at a fixed
start: the vowel, the maximal letter run, then exactly one digit at the end
(a shorter run would leave a letter where `\d` must match). -/
def syllTail (c : Char) (t : List Char) : Option (List Char × Char) :=
  match t.dropWhile isLowerAlpha with
  | [d] => if jsIsDigit d then some (c :: t.takeWhile isLowerAlpha, d) else none
  | _ => none

/-- The lazy group 1 of `/^([bcdfghjklmnpqrstvwxyz]*?)([aeiouy][a-z]*)(\d)$/`:
try the shortest consonant prefix first, extending one consonant at a time. -/
def syllGo (pre : List Char) : List Char → Option (List Char × List Char × Char)
  | [] => none
  | c :: t =>
    if isVowelY c then
      match syllTail c t with
      | some (fin, d) => some (pre, fin, d)
      | none => if isConsonantClass c then syllGo (pre ++ [c]) t else none
    else if isConsonantClass c then syllGo (pre ++ [c]) t else none

def syllMatch (s : List Char) : Option (List Char × List Char × Char) := syllGo [] s

/-- `/[ptk]$/.test(final)`. -/
def finEndsPtk (fin : List Char) : Bool :=
  match fin.getLast? with
  | some c => c = 'p' || c = 't' || c = 'k'
  | none => false

/-- The encoder's tone-cell emission (lines 471-478): tone `'3'` on an
unchecked final emits the dedicated `'⠈'` cell; otherwise a tone other than
`'1'`, or any tone on an initial-less syllable, emits the reverse-table
cell; otherwise nothing. -/
def toneCellsFor (ini fin : List Char) (tone : Char) : List Char :=
  if tone = '3' && !finEndsPtk fin then ['⠈']
  else if tone ≠ '1' || ini = [] then (jsGet reverseToneMap [tone]).getD []
  else []

/-- The braille cells emitted for a recognized syllable. -/
def encodeSyllCells (ini fin : List Char) (tone : Char) : List Char :=
  (if ini ≠ [] then (jsGet reverseInitialMap ini).getD [] else [])
    ++ (jsGet reverseFinalMap fin).getD []
    ++ toneCellsFor ini fin tone

/-- One token of the encoder's loop (lines 436-489): an all-digit token, a
punctuation token, a recognized syllable (after `jp2rom` of its lowercase
form), or verbatim passthrough. -/
def encodeToken (tok : List Char) : List Char :=
  if tok ≠ [] && tok.all jsIsDigit then
    '⠼' :: tok.foldr (fun d acc => ((jsGet reverseNumberMap [d]).getD [d]) ++ acc) []
  else
    match jsGet reversePunctuationMap tok with
    | some v => v
    | none =>
      match syllMatch (jp2romL (tok.map toLowerAscii)) with
      | some (ini, fin, tone) =>
        if (ini = [] || (jsGet reverseInitialMap ini).isSome)
            && (jsGet reverseFinalMap fin).isSome
            && (jsGet reverseToneMap [tone]).isSome then
          encodeSyllCells ini fin tone
        else tok
      | none => tok

/-- `parseJyutpingToBraille` on character lists.  On the empty string the
source's `match` returns `null` and the loop header throws, hence `none`. -/
def parseJyutpingToBrailleL (s : List Char) : Option (List Char) :=
  if s.isEmpty then none
  else
    let b := ((tokenizeJs s.length s).map encodeToken).flatten
    some (trimGo squeezeWs b.length b)

def parseJyutpingToBraille (s : String) : Option String :=
  (parseJyutpingToBrailleL s.data).map String.mk

/-! ### Computation-friendly clones of the encoder

`buildReverse` re-runs the quadratic assignment loop every time a reverse
table is unfolded during kernel evaluation.  For the bulk round-trip proofs
we therefore pre-state each reverse table as the literal association list it
evaluates to, prove the two equal once, and clone the encoder over the
literal tables.  The clones are proved pointwise equal to the real encoder,
so every theorem below is still about `parseJyutpingToBraille`. -/

def reverseInitialMapC : List (String × String) :=
  [("b", "⠏"), ("p", "⠯"), ("m", "⠍"), ("f", "⠋"), ("d", "⠞"), ("t", "⠾"), ("n", "⠝"),
   ("l", "⠇"), ("g", "⠅"), ("k", "⠗"), ("ng", "⠛"), ("h", "⠓"), ("gw", "⠟"), ("kw", "⠻"),
   ("w", "⠺"), ("z", "⠉"), ("c", "⠭"), ("s", "⠎"), ("j", "⠚")]

def reverseFinalMapC : List (String × String) :=
  [("aa", "⠃"), ("aai", "⠬"), ("aau", "⠌"), ("aam", "⠜"), ("aan", "⠘"), ("aang", "⠉"),
   ("aap", "⠏"), ("aat", "⠞"), ("aak", "⠅"), ("ai", "⠩"), ("au", "⠡"), ("am", "⠸"),
   ("an", "⠫"), ("ang", "⠛"), ("ap", "⠢"), ("at", "⠔"), ("ak", "⠨"),
   ("e", "⠑"), ("ei", "⠓"), ("eng", "⠶"), ("ek", "⠺"), ("sz", "⠙"), ("i", "⠊"),
   ("iu", "⠽"), ("im", "⠖"), ("in", "⠲"), ("ing", "⠴"), ("ip", "⠯"), ("it", "⠾"),
   ("ik", "⠗"), ("o", "⠕"), ("oi", "⠣"), ("ou", "⠧"), ("om", "⠇"), ("on", "⠝"),
   ("ong", "⠰"), ("op", "⠍"), ("ot", "⠋"), ("ok", "⠻"), ("u", "⠥"), ("ui", "⠳"),
   ("un", "⠮"), ("ung", "⠦"), ("ut", "⠵"), ("uk", "⠟"), ("oe", "⠱"), ("eoi", "⠚"),
   ("eon", "⠎"), ("oeng", "⠒"), ("eot", "⠭"), ("oek", "⠪"), ("yu", "⠹"), ("yun", "⠆"),
   ("yut", "⠷")]

def reverseToneMapC : List (String × String) :=
  [("1", "⠀"), ("2", "⠁"), ("3", "⠐"), ("4", "⠄"), ("5", "⠠"), ("6", "⠂")]

def reverseNumberMapC : List (String × String) :=
  [("1", "⠁"), ("2", "⠃"), ("3", "⠉"), ("4", "⠙"), ("5", "⠑"), ("6", "⠋"), ("7", "⠛"),
   ("8", "⠓"), ("9", "⠊"), ("0", "⠚"), (" ", "⠀")]

def reversePunctuationMapC : List (String × String) :=
  [("。", "⠿⠀"), ("，", "⠤"), ("、", "⠘"), ("‧", "⠰⠆"), ("？", "⠦⠀"), ("！", "⠮⠀"),
   ("：", "⠒⠀"), ("；", "⠢⠀"), ("-", "⠤⠄"), ("—", "⠤⠤"), ("…", "⠀⠄⠄⠄⠀"),
   ("（", "⠀⠶"), ("）", "⠶⠀"), ("［", "⠀⠠⠶"), ("］", "⠶⠄⠀"), ("《", "⠀⠣"),
   ("》", "⠜⠀"), ("〈", "⠀⠠⠣"), ("〉", "⠜⠄⠀"), ("「", "⠀⠷"), ("」", "⠻⠀"),
   ("『", "⠀⠠⠦"), ("』", "⠴⠄⠀"), ("**", "⠵⠀")]

theorem reverseInitialMap_eq : reverseInitialMap = reverseInitialMapC := by decide

theorem reverseFinalMap_eq : reverseFinalMap = reverseFinalMapC := by decide

theorem reverseToneMap_eq : reverseToneMap = reverseToneMapC := by decide

theorem reverseNumberMap_eq : reverseNumberMap = reverseNumberMapC := by decide

theorem reversePunctuationMap_eq : reversePunctuationMap = reversePunctuationMapC := by decide

def toneCellsForC (ini fin : List Char) (tone : Char) : List Char :=
  if tone = '3' && !finEndsPtk fin then ['⠈']
  else if tone ≠ '1' || ini = [] then (jsGet reverseToneMapC [tone]).getD []
  else []

def encodeSyllCellsC (ini fin : List Char) (tone : Char) : List Char :=
  (if ini ≠ [] then (jsGet reverseInitialMapC ini).getD [] else [])
    ++ (jsGet reverseFinalMapC fin).getD []
    ++ toneCellsForC ini fin tone

def encodeTokenC (tok : List Char) : List Char :=
  if tok ≠ [] && tok.all jsIsDigit then
    '⠼' :: tok.foldr (fun d acc => ((jsGet reverseNumberMapC [d]).getD [d]) ++ acc) []
  else
    match jsGet reversePunctuationMapC tok with
    | some v => v
    | none =>
      match syllMatch (jp2romL (tok.map toLowerAscii)) with
      | some (ini, fin, tone) =>
        if (ini = [] || (jsGet reverseInitialMapC ini).isSome)
            && (jsGet reverseFinalMapC fin).isSome
            && (jsGet reverseToneMapC [tone]).isSome then
          encodeSyllCellsC ini fin tone
        else tok
      | none => tok

def parseJyutpingToBrailleLC (s : List Char) : Option (List Char) :=
  if s.isEmpty then none
  else
    let b := ((tokenizeJs s.length s).map encodeTokenC).flatten
    some (trimGo squeezeWs b.length b)

theorem toneCellsFor_eq : toneCellsFor = toneCellsForC := by
  funext ini fin tone
  simp only [toneCellsFor, toneCellsForC, reverseToneMap_eq]

theorem encodeSyllCells_eq : encodeSyllCells = encodeSyllCellsC := by
  funext ini fin tone
  simp only [encodeSyllCells, encodeSyllCellsC, reverseInitialMap_eq, reverseFinalMap_eq,
    toneCellsFor_eq]

theorem encodeToken_eq : encodeToken = encodeTokenC := by
  funext tok
  simp only [encodeToken, encodeTokenC, reverseInitialMap_eq, reverseFinalMap_eq,
    reverseToneMap_eq, reverseNumberMap_eq, reversePunctuationMap_eq, encodeSyllCells_eq]

theorem parseJyutpingToBrailleL_eq : parseJyutpingToBrailleL = parseJyutpingToBrailleLC := by
  funext s
  simp only [parseJyutpingToBrailleL, parseJyutpingToBrailleLC, encodeToken_eq]

/-! ### Generic facts about `jsGet`, `jsAssign` and `buildReverse` -/

theorem stringDataEq {a b : String} (h : a.data = b.data) : a = b := by
  cases a
  cases b
  exact congrArg String.mk (by simpa using h)

theorem jsGet_cons (kv : String × String) (tl : List (String × String)) (k2 : List Char) :
    jsGet (kv :: tl) k2 = if kv.1.data = k2 then some kv.2.data else jsGet tl k2 := by
  unfold jsGet
  cases h : (kv.1.data == k2) with
  | true => simp [List.find?, h, beq_iff_eq.mp h]
  | false => simp [List.find?, h, beq_eq_false_iff_ne.mp h]

theorem jsGet_mem {m : List (String × String)} {k v : List Char} (h : jsGet m k = some v) :
    ∃ kv ∈ m, kv.1.data = k ∧ kv.2.data = v := by
  induction m with
  | nil => simp [jsGet] at h
  | cons kv0 tl ih =>
    rw [jsGet_cons] at h
    by_cases h0 : kv0.1.data = k
    · rw [if_pos h0] at h
      exact ⟨kv0, List.mem_cons_self .., h0, by simpa using h⟩
    · rw [if_neg h0] at h
      rcases ih h with ⟨kv, hmem, hk, hv⟩
      exact ⟨kv, List.mem_cons_of_mem _ hmem, hk, hv⟩

/-- The cell written for `sym` by the textually last entry of `m` that maps
to `sym` (what the derived reverse tables are shown below to contain). -/
def lastDefinedCell (m : List (String × String)) (sym : List Char) : Option (List Char) :=
  (m.reverse.find? (fun kv => kv.2.data == sym)).map (fun kv => kv.1.data)

theorem jsGet_map_assign_ne (obj : List (String × String)) (k v : String) (k2 : List Char)
    (hne : ¬ k2 = k.data) :
    jsGet (obj.map (fun kv => if kv.1 == k then (k, v) else kv)) k2 = jsGet obj k2 := by
  induction obj with
  | nil => rfl
  | cons kv0 tl ih =>
    rw [List.map_cons]
    by_cases h0 : kv0.1 = k
    · have hdta : (if kv0.1 == k then (k, v) else kv0) = (k, v) := by
        rw [if_pos (beq_iff_eq.mpr h0)]
      have hx : ¬ k.data = k2 := fun hy => hne hy.symm
      have hx0 : ¬ kv0.1.data = k2 := by rw [h0]; exact hx
      rw [hdta, jsGet_cons, jsGet_cons, if_neg hx, if_neg hx0, ih]
    · have hdta : (if kv0.1 == k then (k, v) else kv0) = kv0 := by
        rw [if_neg (by simpa using h0)]
      rw [hdta, jsGet_cons, jsGet_cons, ih]

theorem jsGet_map_assign_eq (obj : List (String × String)) (k v : String)
    (h : obj.any (fun kv => kv.1 == k) = true) :
    jsGet (obj.map (fun kv => if kv.1 == k then (k, v) else kv)) k.data = some v.data := by
  induction obj with
  | nil => simp at h
  | cons kv0 tl ih =>
    rw [List.map_cons]
    by_cases h0 : kv0.1 = k
    · have hdta : (if kv0.1 == k then (k, v) else kv0) = (k, v) := by
        rw [if_pos (beq_iff_eq.mpr h0)]
      rw [hdta, jsGet_cons, if_pos rfl]
    · have hdta : (if kv0.1 == k then (k, v) else kv0) = kv0 := by
        rw [if_neg (by simpa using h0)]
      have htl : tl.any (fun kv => kv.1 == k) = true := by
        rcases List.any_eq_true.mp h with ⟨kv, hmem, hkv⟩
        rcases List.mem_cons.mp hmem with he | he
        · exact absurd (beq_iff_eq.mp (he ▸ hkv)) h0
        · exact List.any_eq_true.mpr ⟨kv, he, hkv⟩
      have hx0 : ¬ kv0.1.data = k.data := fun hy => h0 (stringDataEq hy)
      rw [hdta, jsGet_cons, if_neg hx0, ih htl]

theorem jsGet_eq_none_of_not_any {obj : List (String × String)} {k : String}
    (h : obj.any (fun kv => kv.1 == k) = false) : jsGet obj k.data = none := by
  induction obj with
  | nil => rfl
  | cons kv0 tl ih =>
    simp only [List.any_cons, Bool.or_eq_false_iff] at h
    rw [jsGet_cons, if_neg, ih h.2]
    intro hx
    have hk : kv0.1 = k := stringDataEq hx
    have h1 := h.1
    rw [hk] at h1
    simp at h1

theorem jsGet_append_none (obj tl2 : List (String × String)) (k2 : List Char)
    (h : jsGet obj k2 = none) : jsGet (obj ++ tl2) k2 = jsGet tl2 k2 := by
  induction obj with
  | nil => rfl
  | cons kv0 tl ih =>
    rw [jsGet_cons] at h
    by_cases hx : kv0.1.data = k2
    · rw [if_pos hx] at h; simp at h
    · rw [if_neg hx] at h
      rw [List.cons_append, jsGet_cons, if_neg hx, ih h]

theorem jsGet_append_some (obj tl2 : List (String × String)) (k2 : List Char)
    {v : List Char} (h : jsGet obj k2 = some v) : jsGet (obj ++ tl2) k2 = some v := by
  induction obj with
  | nil => simp [jsGet] at h
  | cons kv0 tl ih =>
    rw [jsGet_cons] at h
    rw [List.cons_append, jsGet_cons]
    by_cases hx : kv0.1.data = k2
    · rw [if_pos hx] at h; rw [if_pos hx]; exact h
    · rw [if_neg hx] at h; rw [if_neg hx]; exact ih h

theorem jsGet_jsAssign (obj : List (String × String)) (k v : String) (k2 : List Char) :
    jsGet (jsAssign obj k v) k2 = if k2 = k.data then some v.data else jsGet obj k2 := by
  unfold jsAssign
  by_cases h : obj.any (fun kv => kv.1 == k)
  · rw [if_pos h]
    by_cases h2 : k2 = k.data
    · rw [if_pos h2, h2, jsGet_map_assign_eq obj k v h]
    · rw [if_neg h2, jsGet_map_assign_ne obj k v k2 h2]
  · rw [if_neg h]
    have hnone := jsGet_eq_none_of_not_any (Bool.of_not_eq_true h)
    by_cases h2 : k2 = k.data
    · subst h2
      rw [if_pos rfl, jsGet_append_none obj _ _ hnone, jsGet_cons, if_pos rfl]
    · rw [if_neg h2]
      cases hf : jsGet obj k2 with
      | some w => exact jsGet_append_some obj _ _ hf
      | none =>
        rw [jsGet_append_none obj _ _ hf, jsGet_cons, if_neg (fun hx => h2 hx.symm)]
        rfl

theorem buildReverse_loop (m : List (String × String)) (obj : List (String × String))
    (k2 : List Char) :
    jsGet (m.foldl (fun o kv => jsAssign o kv.2 kv.1) obj) k2 =
      (lastDefinedCell m k2).or (jsGet obj k2) := by
  induction m generalizing obj with
  | nil => simp [lastDefinedCell]
  | cons kv m ih =>
    rw [List.foldl_cons, ih]
    unfold lastDefinedCell
    rw [List.reverse_cons, List.find?_append]
    cases hf : m.reverse.find? (fun kv2 => kv2.2.data == k2) with
    | some w => simp
    | none =>
      rw [jsGet_jsAssign]
      cases hp : (kv.2.data == k2) with
      | true =>
        have he : k2 = kv.2.data := (beq_iff_eq.mp hp).symm
        simp [List.find?, hp, he]
      | false =>
        have he : ¬ k2 = kv.2.data := fun hx => by rw [hx] at hp; simp at hp
        simp [List.find?, hp, he]

theorem buildReverse_lastWins (m : List (String × String)) (sym : List Char) :
    jsGet (buildReverse m) sym = lastDefinedCell m sym := by
  unfold buildReverse
  rw [buildReverse_loop]
  cases lastDefinedCell m sym <;> rfl

/-! ### Claim theorems -/

/-- Claim C3 (counterexample): the claim states that reverse tables resolve
duplicate symbols first-definition-wins, so that `reverseToneMap['3']` would
be `'⠈'`; in fact the `forEach` assignment loop lets the later entry
overwrite the earlier one, and `reverseToneMap['3']` is `'⠐'`. -/
theorem c3_reverse_first_wins_counterexample :
    jsGet reverseToneMap ("3".data) = some ("⠐".data) ∧
      jsGet reverseToneMap ("3".data) ≠ some ("⠈".data) := by
  constructor
  · decide
  · decide

/-- Claim C3 (amended): reverse-table construction resolves duplicate
symbols by last-definition-wins: for every forward table and symbol, the
derived reverse lookup returns the cell of the textually last entry mapping
to that symbol; in particular, since `toneMap` defines `'⠈' -> '3'` before
`'⠐' -> '3'`, `reverseToneMap['3']` is `'⠐'`. -/
theorem c3_reverse_last_wins :
    (∀ (m : List (String × String)) (sym : List Char),
        jsGet (buildReverse m) sym = lastDefinedCell m sym) ∧
      jsGet reverseToneMap ("3".data) = some ("⠐".data) := by
  refine ⟨buildReverse_lastWins, by decide⟩

theorem toneScan_snd_length (l : List Char) : (toneScan l).2.length ≤ l.length := by
  cases l with
  | nil => simp [toneScan]
  | cons t l2 =>
    cases h1 : jsGet toneMap [t] with
    | some v => simp [toneScan, h1]
    | none =>
      by_cases h2 : t = '⠠'
      · subst h2
        cases l2 with
        | nil => simp [toneScan, h1]
        | cons u l3 =>
          cases h3 : jsGet toneMap ['⠠', u] with
          | some v =>
            simp [toneScan, h1, h3]
            omega
          | none => simp [toneScan, h1, h3]
      · simp [toneScan, h1, h2]

theorem scanGo_succ (fuel : Nat) (c1 : Char) (rest : List Char) (m : Bool) :
    scanGo (fuel + 1) (c1 :: rest) m =
      (scanStep (c1 :: rest) m).out ++
        scanGo fuel (scanStep (c1 :: rest) m).rest (scanStep (c1 :: rest) m).num := rfl

theorem scanStep_rest_length (l : List Char) (m : Bool) (h : l ≠ []) :
    (scanStep l m).rest.length < l.length := by
  cases l with
  | nil => exact absurd rfl h
  | cons c1 rest =>
    simp only [scanStep]
    split
    · simp
    · split
      · simp
      · cases h5 : jsGet punctuationMap (c1 :: rest.take 4) with
        | some v =>
          simp [h5, List.length_drop]
          omega
        | none =>
        simp only [h5]
        cases h3 : jsGet punctuationMap (c1 :: rest.take 2) with
        | some v =>
          simp [h3, List.length_drop]
          omega
        | none =>
        simp only [h3]
        cases h2 : jsGet punctuationMap (c1 :: rest.take 1) with
        | some v =>
          simp [h2, List.length_drop]
          omega
        | none =>
        simp only [h2]
        cases h1 : jsGet punctuationMap [c1] with
        | some v => simp [h1]
        | none =>
        simp only [h1]
        split
        · cases rest with
          | nil => simp
          | cons c2 rest2 =>
            have hts := toneScan_snd_length rest2
            simp only [List.length_cons]
            omega
        · split
          · have hts := toneScan_snd_length rest
            simp only [List.length_cons]
            omega
          · split
            · simp
            · split
              · simp
              · simp

theorem scanGo_stable (fuel : Nat) (l : List Char) (m : Bool) (hle : l.length ≤ fuel) :
    scanGo fuel l m = scanGo l.length l m := by
  induction fuel using Nat.strong_induction_on generalizing l m with
  | _ fuel ih =>
    cases l with
    | nil => cases fuel <;> rfl
    | cons c1 rest =>
      cases fuel with
      | zero => simp at hle
      | succ f =>
        have hlen : (c1 :: rest).length = rest.length + 1 := rfl
        rw [scanGo_succ, hlen, scanGo_succ]
        have hstep := scanStep_rest_length (c1 :: rest) m (by simp)
        have h1 : (scanStep (c1 :: rest) m).rest.length ≤ f := by
          simp only [List.length_cons] at hstep
          omega
        have h2 : (scanStep (c1 :: rest) m).rest.length ≤ rest.length := by
          simp only [List.length_cons] at hstep
          omega
        have e1 := ih f (by omega) (scanStep (c1 :: rest) m).rest (scanStep (c1 :: rest) m).num h1
        have e2 := ih rest.length (by omega) (scanStep (c1 :: rest) m).rest
          (scanStep (c1 :: rest) m).num h2
        rw [e1, e2]

/-- Claim C2: the decoder is total and terminating: every iteration of the
scanning loop strictly advances the cursor (consumes at least one cell), and
consequently running the loop with any fuel at least the input length gives
the same result as fuel exactly the input length — the `while` loop
terminates, and `parseCantoneseBraille` returns a string on every input
(unrecognized cells are passed through, as witnessed elsewhere by
evaluation). -/
theorem c2_decoder_terminates :
    (∀ (l : List Char) (m : Bool), l ≠ [] → (scanStep l m).rest.length < l.length) ∧
      (∀ (fuel : Nat) (l : List Char) (m : Bool), l.length ≤ fuel →
        scanGo fuel l m = scanGo l.length l m) :=
  ⟨scanStep_rest_length, scanGo_stable⟩

/-- Witness for C2 at a concrete loop state: on input `"⠃⠂x"` the first
iteration consumes cells, and extra fuel does not change the loop's answer. -/
theorem c2_decoder_terminates_witness :
    (scanStep ("⠃⠂x".data) false).rest.length < ("⠃⠂x".data).length ∧
      scanGo 99 ("⠃⠂x".data) false = scanGo ("⠃⠂x".data).length ("⠃⠂x".data) false :=
  ⟨c2_decoder_terminates.1 _ _ (by decide),
   c2_decoder_terminates.2 99 _ _ (by decide)⟩

theorem findIdx?_some_lt {α : Type} {p : α → Bool} :
    ∀ {l : List α} {i n : Nat}, List.findIdx? p l i = some n → n < i + l.length := by
  intro l
  induction l with
  | nil => intro i n h; simp [List.findIdx?] at h
  | cons x xs ih =>
    intro i n h
    rw [List.findIdx?_cons] at h
    by_cases hp : p x = true
    · rw [if_pos hp] at h
      cases h
      simp
    · rw [if_neg hp] at h
      have := ih h
      simp only [List.length_cons]
      omega

theorem upperAscii_fixes_braille : ∀ n < 64, toUpperAscii (Char.ofNat (0x2800 + n)) =
    Char.ofNat (0x2800 + n) := by decide

theorem order_misses_braille : ∀ n < 64,
    brailleAsciiOrder.findIdx? (fun x => x == Char.ofNat (0x2800 + n)) = none := by decide

theorem brailleAsciiOrder_length : brailleAsciiOrder.length = 64 := by decide

theorem toUpperAscii_cases (c : Char) :
    toUpperAscii c = c ∨ toUpperAscii c ∈
      ['A', 'B', 'C', 'D', 'E', 'F', 'G', 'H', 'I', 'J', 'K', 'L', 'M',
       'N', 'O', 'P', 'Q', 'R', 'S', 'T', 'U', 'V', 'W', 'X', 'Y', 'Z'] := by
  unfold toUpperAscii
  split <;> first | (left; rfl) | (right; decide)

theorem toUpperAscii_fixes_upper : ∀ u ∈
    ['A', 'B', 'C', 'D', 'E', 'F', 'G', 'H', 'I', 'J', 'K', 'L', 'M',
     'N', 'O', 'P', 'Q', 'R', 'S', 'T', 'U', 'V', 'W', 'X', 'Y', 'Z'],
    toUpperAscii u = u := by decide

theorem toUpperAscii_idem (c : Char) : toUpperAscii (toUpperAscii c) = toUpperAscii c := by
  rcases toUpperAscii_cases c with h | h
  · rw [h]
    exact h
  · exact toUpperAscii_fixes_upper _ h

theorem translitChar_idem (c : Char) : translitChar (translitChar c) = translitChar c := by
  cases hf : brailleAsciiOrder.findIdx? (fun x => x == toUpperAscii c) with
  | some n =>
    have hb : n < 64 := by
      have h2 := findIdx?_some_lt hf
      rw [brailleAsciiOrder_length] at h2
      omega
    have h1 : translitChar c = Char.ofNat (0x2800 + n) := by
      simp only [translitChar, hf]
    rw [h1]
    simp only [translitChar, upperAscii_fixes_braille n hb, order_misses_braille n hb]
  | none =>
    have h1 : translitChar c = toUpperAscii c := by
      simp only [translitChar, hf]
    rw [h1]
    simp only [translitChar, toUpperAscii_idem, hf]

/-- Claim C10: the decoder accepts Braille-ASCII transparently: it
uppercases the input and maps each character found in the 64-character
Braille-ASCII ordering string to the braille cell at `0x2800` plus its
index (that is what `translitChar` does), so decoding any string gives the
same result as decoding its transliteration to Unicode braille. -/
theorem c10_braille_ascii_transparent (s : String) :
    parseCantoneseBraille s = parseCantoneseBraille (String.mk (s.data.map translitChar)) := by
  unfold parseCantoneseBraille parseCantoneseBrailleL
  have hmap : (String.mk (s.data.map translitChar)).data.map translitChar
      = s.data.map translitChar := by
    show (s.data.map translitChar).map translitChar = s.data.map translitChar
    rw [List.map_map]
    exact List.map_congr_left (fun a _ => translitChar_idem a)
  rw [hmap]

/-- Claim C6: the two-cell input `'⠛'` (final `ang`) followed by `'⠂'`
(tone 6) decodes to `"ng6"`, and encoding `"ng6"` yields exactly `"⠛⠂"`. -/
theorem c6_historic_final_roundtrip :
    parseCantoneseBraille "⠛⠂" = "ng6" ∧ parseJyutpingToBraille "ng6" = some "⠛⠂" := by
  constructor
  · decide
  · decide

/-- Claim C4: punctuation maximal munch: whenever the first five cells of
the remaining input equal a registered 5-cell punctuation key (at the
decoder's initial state), the decoder emits that punctuation as one unit
and consumes exactly five cells — never a shorter match at the same
position, since the 5-cell window is tried before the 3-, 2- and 1-cell
windows in `scanStep`. -/
theorem c4_punctuation_maximal_munch (k v : String) (hmem : (k, v) ∈ punctuationMap)
    (hlen : k.data.length = 5) (rest : List Char) :
    scanStep (k.data ++ rest) false = ⟨v.data ++ sepIf rest, rest, false⟩ := by
  fin_cases hmem <;> first
  | exact absurd hlen (by decide)
  | · show scanStep ('⠀' :: '⠄' :: '⠄' :: '⠄' :: '⠀' :: rest) false = _
      have h5 : jsGet punctuationMap ['⠀', '⠄', '⠄', '⠄', '⠀'] = some ("…".data) := by decide
      simp only [scanStep, List.take_succ_cons, List.take_zero, List.drop_succ_cons,
        List.drop_zero, h5]
      rw [if_neg (show ¬ ('⠀' = '⠼') by decide)]
      norm_num

/-- Witness for C4: the 5-cell ellipsis key at the head of a longer input is
consumed as one 5-cell unit. -/
theorem c4_punctuation_maximal_munch_witness :
    scanStep ("⠀⠄⠄⠄⠀".data ++ "⠃".data) false = ⟨"…".data ++ sepIf "⠃".data, "⠃".data, false⟩ :=
  c4_punctuation_maximal_munch "⠀⠄⠄⠄⠀" "…" (by decide) (by decide) "⠃".data

/-- Claim C8: the encoder's tone-cell policy (used by `encodeSyllCells`
inside `parseJyutpingToBraille` for every recognized syllable): tone `'3'`
on a final not ending in `p`/`t`/`k` emits the dedicated mid-level cell
`'⠈'`; every other tone different from `'1'` emits that tone's cell from
the reverse tone table; and tone `'1'` emits a tone cell if and only if the
syllable has no initial. -/
theorem c8_encoder_tone_policy (ini fin : List Char) (tone : Char) :
    (tone = '3' → finEndsPtk fin = false → toneCellsFor ini fin tone = ['⠈']) ∧
      (tone ≠ '1' → ¬(tone = '3' ∧ finEndsPtk fin = false) →
        toneCellsFor ini fin tone = (jsGet reverseToneMap [tone]).getD []) ∧
      (tone = '1' → (toneCellsFor ini fin tone ≠ [] ↔ ini = [])) := by
  refine ⟨?_, ?_, ?_⟩
  · intro h3 hp
    simp [toneCellsFor, h3, hp]
  · intro h1 hnot
    have hcond : (tone = '3' && !finEndsPtk fin) = false := by
      by_cases h3 : tone = '3'
      · cases hptk : finEndsPtk fin with
        | true => simp [h3, hptk]
        | false => exact absurd ⟨h3, hptk⟩ hnot
      · simp [h3]
    simp only [toneCellsFor]
    rw [if_neg (by simp_all), if_pos (by simp [h1])]
  · intro h1
    subst h1
    simp only [toneCellsFor]
    rw [if_neg (by simp)]
    by_cases hi : ini = []
    · rw [if_pos (by simp [hi])]
      simp [hi]
      decide
    · rw [if_neg (by simp [hi])]
      simp [hi]

/-- Witness for C8: tone 3 on unchecked `aa` emits `'⠈'`; tone 3 on checked
`ap` falls back to the reverse tone table; tone 1 with no initial emits a
tone cell. -/
theorem c8_encoder_tone_policy_witness :
    toneCellsFor ("b".data) ("aa".data) '3' = ['⠈'] ∧
      toneCellsFor ("b".data) ("ap".data) '3' = (jsGet reverseToneMap ['3']).getD [] ∧
      (toneCellsFor [] ("aa".data) '1' ≠ [] ↔ ([] : List Char) = []) :=
  ⟨(c8_encoder_tone_policy ("b".data) ("aa".data) '3').1 rfl (by decide),
   (c8_encoder_tone_policy ("b".data) ("ap".data) '3').2.1 (by decide) (by decide),
   (c8_encoder_tone_policy [] ("aa".data) '1').2.2 rfl⟩

/-- Classification of which branch of `scanStep` fires, by the same
conditions in the same order (for stating the separator policy). -/
inductive StepKind where
  | numPre
  | digit
  | punct
  | syll
  | blank
  | literal
deriving DecidableEq

def stepKind (l : List Char) (inNum : Bool) : StepKind :=
  match l with
  | [] => StepKind.literal
  | c1 :: rest =>
    if c1 = '⠼' then StepKind.numPre
    else if inNum && (jsGet numberMap [c1]).isSome then StepKind.digit
    else if (jsGet punctuationMap (c1 :: rest.take 4)).isSome
        || (jsGet punctuationMap (c1 :: rest.take 2)).isSome
        || (jsGet punctuationMap (c1 :: rest.take 1)).isSome
        || (jsGet punctuationMap [c1]).isSome then StepKind.punct
    else if isInit c1 && (match rest.head? with | some c2 => isFin c2 | none => false) then
      StepKind.syll
    else if isFin c1 then StepKind.syll
    else if isInit c1 && !rest.isEmpty then StepKind.literal
    else if c1 = '⠀' then StepKind.blank
    else StepKind.literal

theorem punctValues_ok : ∀ kv ∈ punctuationMap,
    kv.2.data ≠ [] ∧ kv.2.data.getLast? ≠ some ' ' := by decide

theorem toneValues_ok : ∀ kv ∈ toneMap,
    kv.2.data ≠ [] ∧ kv.2.data.getLast? ≠ some ' ' := by decide

theorem numberValues_len : ∀ kv ∈ numberMap, kv.2.data.length = 1 := by decide

theorem toneScan_fst_ok (l : List Char) :
    (toneScan l).1 ≠ [] ∧ (toneScan l).1.getLast? ≠ some ' ' := by
  have hsrc : (toneScan l).1 = "1".data ∨ ∃ k, jsGet toneMap k = some (toneScan l).1 := by
    cases l with
    | nil => left; simp [toneScan]
    | cons t l2 =>
      cases h1 : jsGet toneMap [t] with
      | some v => right; exact ⟨[t], by simp [toneScan, h1]⟩
      | none =>
        by_cases h2 : t = '⠠'
        · subst h2
          cases l2 with
          | nil => left; simp [toneScan, h1]
          | cons u l3 =>
            cases h3 : jsGet toneMap ['⠠', u] with
            | some v => right; exact ⟨['⠠', u], by simp [toneScan, h1, h3]⟩
            | none => left; simp [toneScan, h1, h3]
        · left; simp [toneScan, h1, h2]
  rcases hsrc with h | ⟨k, hk⟩
  · rw [h]
    constructor
    · decide
    · decide
  · rcases jsGet_mem hk with ⟨kv, hmem, _, hv⟩
    rw [← hv]
    exact toneValues_ok kv hmem

theorem punct_val_facts {k v : List Char} (h : jsGet punctuationMap k = some v) :
    v ≠ [] ∧ v.getLast? ≠ some ' ' := by
  rcases jsGet_mem h with ⟨kv, hmem, _, hval⟩
  rw [← hval]
  exact punctValues_ok kv hmem

theorem sepIf_ne {r : List Char} (h : r ≠ []) : sepIf r = [' '] := by
  simp [sepIf, h]

theorem getLast?_append_right {l t : List Char} (h : t ≠ []) :
    (l ++ t).getLast? = t.getLast? := by
  rw [List.getLast?_append]
  cases ht : t.getLast? with
  | none => exact absurd (List.getLast?_eq_none_iff.mp ht) h
  | some d => rfl

theorem emitSyllable_getLast (ini fin tone : List Char) (h : tone ≠ []) :
    (emitSyllable ini fin tone).getLast? = tone.getLast? := by
  have hne : ∀ (a : List Char), a ++ tone ≠ [] := by
    intro a hx
    exact h (List.append_eq_nil.mp hx).2
  unfold emitSyllable
  split
  · dsimp only
    rw [getLast?_append_right h]
  · rw [getLast?_append_right h]

/-- Claim C9 (counterexample): the claim says that after a digit emitted at
the end of a number run the decoder appends a separator space when input
remains; in fact the digit branch never appends one, so `"⠼⠁⠕"` (number
prefix, digit 1, final `o`) decodes to `"1o1"`, not `"1 o1"`. -/
theorem c9_separator_counterexample :
    parseCantoneseBraille "⠼⠁⠕" = "1o1" ∧ ("1o1" : String) ≠ "1 o1" := by
  constructor
  · decide
  · decide

/-- Claim C9 (amended): the decoder appends exactly one separator space,
when input cells remain, after a syllable, a punctuation unit, or a literal
passthrough cell; it appends no separator after a number-prefix cell, after
a digit emission (even at the end of a run), or after a blank-derived
space. -/
theorem c9_separator_policy (l : List Char) (m : Bool) (h : l ≠ []) :
    ((stepKind l m = StepKind.syll ∨ stepKind l m = StepKind.punct ∨
        stepKind l m = StepKind.literal) → (scanStep l m).rest ≠ [] →
      ∃ u, (scanStep l m).out = u ++ [' ']) ∧
      ((stepKind l m = StepKind.syll ∨ stepKind l m = StepKind.punct) →
          (scanStep l m).rest ≠ [] →
        ∃ u, (scanStep l m).out = u ++ [' '] ∧ u.getLast? ≠ some ' ') ∧
      (stepKind l m = StepKind.numPre → (scanStep l m).out = []) ∧
      (stepKind l m = StepKind.digit → (scanStep l m).out.length = 1) ∧
      (stepKind l m = StepKind.blank → (scanStep l m).out = [' ']) := by
  cases l with
  | nil => exact absurd rfl h
  | cons c1 rest =>
  by_cases hp : c1 = '⠼'
  · simp [scanStep, stepKind, hp]
  · by_cases hd : (m && (jsGet numberMap [c1]).isSome) = true
    · rcases Bool.and_eq_true_iff.mp hd with ⟨hm, hsome⟩
      rcases Option.isSome_iff_exists.mp hsome with ⟨v, hv⟩
      have hlen : v.length = 1 := by
        rcases jsGet_mem hv with ⟨kv, hmem, _, hval⟩
        rw [← hval]
        exact numberValues_len kv hmem
      simp [scanStep, stepKind, hp, hm, hv, hlen]
    · cases h5 : jsGet punctuationMap (c1 :: rest.take 4) with
      | some v =>
        have hvf := punct_val_facts h5
        simp only [scanStep, stepKind, if_neg hp, hd, if_false, h5, Option.isSome_some,
          Bool.true_or, if_true, Bool.false_eq_true]
        refine ⟨?_, ?_, by simp, by simp, by simp⟩
        · intro _ hrest
          rw [sepIf_ne hrest]
          exact ⟨v, rfl⟩
        · intro _ hrest
          rw [sepIf_ne hrest]
          exact ⟨v, rfl, hvf.2⟩
      | none =>
      cases h3 : jsGet punctuationMap (c1 :: rest.take 2) with
      | some v =>
        have hvf := punct_val_facts h3
        simp only [scanStep, stepKind, if_neg hp, hd, if_false, h5, h3, Option.isSome_some,
          Option.isSome_none, Bool.false_or, Bool.true_or, if_true, Bool.false_eq_true]
        refine ⟨?_, ?_, by simp, by simp, by simp⟩
        · intro _ hrest
          rw [sepIf_ne hrest]
          exact ⟨v, rfl⟩
        · intro _ hrest
          rw [sepIf_ne hrest]
          exact ⟨v, rfl, hvf.2⟩
      | none =>
      cases h2 : jsGet punctuationMap (c1 :: rest.take 1) with
      | some v =>
        have hvf := punct_val_facts h2
        simp only [scanStep, stepKind, if_neg hp, hd, if_false, h5, h3, h2, Option.isSome_some,
          Option.isSome_none, Bool.false_or, Bool.true_or, if_true, Bool.false_eq_true]
        refine ⟨?_, ?_, by simp, by simp, by simp⟩
        · intro _ hrest
          rw [sepIf_ne hrest]
          exact ⟨v, rfl⟩
        · intro _ hrest
          rw [sepIf_ne hrest]
          exact ⟨v, rfl, hvf.2⟩
      | none =>
      cases h1 : jsGet punctuationMap [c1] with
      | some v =>
        have hvf := punct_val_facts h1
        simp only [scanStep, stepKind, if_neg hp, hd, if_false, h5, h3, h2, h1,
          Option.isSome_some, Option.isSome_none, Bool.false_or, Bool.true_or, if_true,
          Bool.false_eq_true]
        refine ⟨?_, ?_, by simp, by simp, by simp⟩
        · intro _ hrest
          rw [sepIf_ne hrest]
          exact ⟨v, rfl⟩
        · intro _ hrest
          rw [sepIf_ne hrest]
          exact ⟨v, rfl, hvf.2⟩
      | none =>
      by_cases hs1 : (isInit c1 &&
          (match rest.head? with | some c2 => isFin c2 | none => false)) = true
      · cases rest with
        | nil => simp [isFin] at hs1
        | cons c2 rest2 =>
          have htone := toneScan_fst_ok rest2
          simp only [scanStep, stepKind, if_neg hp, hd, if_false, h5, h3, h2, h1,
            Option.isSome_none, Bool.false_or, Bool.false_eq_true, hs1, if_true]
          refine ⟨?_, ?_, by simp, by simp, by simp⟩
          · intro _ hrest
            rw [sepIf_ne hrest]
            exact ⟨_, rfl⟩
          · intro _ hrest
            rw [sepIf_ne hrest]
            refine ⟨_, rfl, ?_⟩
            rw [emitSyllable_getLast _ _ _ htone.1]
            intro hx
            rcases List.getLast?_eq_some_iff.mp hx with ⟨l2, hl2⟩
            apply htone.2
            rw [hl2]
            simp
      · by_cases hs2 : isFin c1 = true
        · have htone := toneScan_fst_ok rest
          simp only [scanStep, stepKind, if_neg hp, hd, if_false, h5, h3, h2, h1,
            Option.isSome_none, Bool.false_or, Bool.false_eq_true, hs1, hs2, if_true]
          refine ⟨?_, ?_, by simp, by simp, by simp⟩
          · intro _ hrest
            rw [sepIf_ne hrest]
            exact ⟨_, rfl⟩
          · intro _ hrest
            rw [sepIf_ne hrest]
            refine ⟨_, rfl, ?_⟩
            rw [emitSyllable_getLast _ _ _ htone.1]
            intro hx
            rcases List.getLast?_eq_some_iff.mp hx with ⟨l2, hl2⟩
            apply htone.2
            rw [hl2]
            simp
        · by_cases hs3 : (isInit c1 && !rest.isEmpty) = true
          · simp only [scanStep, stepKind, if_neg hp, hd, if_false, h5, h3, h2, h1,
              Option.isSome_none, Bool.false_or, Bool.false_eq_true, hs1, hs2, hs3, if_true]
            refine ⟨?_, by simp, by simp, by simp, by simp⟩
            intro _ hrest
            rw [sepIf_ne hrest]
            exact ⟨[c1], rfl⟩
          · by_cases hb : c1 = '⠀'
            · subst hb
              simp [scanStep, stepKind, hp, hd, h5, h3, h2, h1, hs1, hs2, hs3]
            · simp only [scanStep, stepKind, if_neg hp, hd, if_false, h5, h3, h2, h1,
                Option.isSome_none, Bool.false_or, Bool.false_eq_true, hs1, hs2, hs3,
                if_neg hb]
              refine ⟨?_, by simp, by simp, by simp, by simp⟩
              intro _ hrest
              rw [sepIf_ne hrest]
              exact ⟨[c1], rfl⟩

/-- Witness for C9 at a concrete state: the syllable step on `"⠏⠃⠕"` (with
a cell remaining) emits its unit followed by exactly one space. -/
theorem c9_separator_policy_witness :
    ∃ u, (scanStep ("⠏⠃⠕".data) false).out = u ++ [' '] :=
  (c9_separator_policy ("⠏⠃⠕".data) false (by decide)).1 (by decide) (by decide)

theorem take_takeWhile_length (p : Char → Bool) (l : List Char) :
    l.take (l.takeWhile p).length = l.takeWhile p :=
  (List.prefix_iff_eq_take.mp (List.takeWhile_prefix p)).symm

theorem drop_takeWhile_length (p : Char → Bool) (l : List Char) :
    l.drop (l.takeWhile p).length = l.dropWhile p := by
  induction l with
  | nil => rfl
  | cons x xs ih =>
    rw [List.takeWhile_cons, List.dropWhile_cons]
    by_cases hx : p x = true
    · rw [if_pos hx, if_pos hx]
      simpa using ih
    · rw [if_neg hx, if_neg hx]
      simp

theorem head?_dropWhile_false (p : Char → Bool) (l : List Char) {c : Char}
    (h : (l.dropWhile p).head? = some c) : p c = false := by
  induction l with
  | nil => simp at h
  | cons x xs ih =>
    rw [List.dropWhile_cons] at h
    by_cases hx : p x = true
    · rw [if_pos hx] at h
      exact ih h
    · rw [if_neg hx] at h
      simp only [List.head?_cons, Option.some.injEq] at h
      rw [← h]
      exact Bool.of_not_eq_true hx

theorem head?_take_pos (l : List Char) (n : Nat) (h : 0 < n) :
    (l.take n).head? = l.head? := by
  cases l with
  | nil => simp
  | cons x xs =>
    cases n with
    | zero => omega
    | succ k => simp

theorem head?_append_left {g x : List Char} (h : g ≠ []) : (g ++ x).head? = g.head? := by
  cases g with
  | nil => exact absurd rfl h
  | cons a t => simp

theorem lineTerm_ws {c : Char} (h : isLineTerm c = true) : isJsWs c = true := by
  have hc : c = '\n' ∨ c = '\r' ∨ c = Char.ofNat 0x2028 ∨ c = Char.ofNat 0x2029 := by
    have h2 := h
    unfold isLineTerm at h2
    simpa [Bool.or_eq_true, decide_eq_true_eq, or_assoc] using h2
  rcases hc with h1 | h1 | h1 | h1 <;> subst h1 <;> decide

theorem linesOf_ne_nil (l : List Char) : linesOf l ≠ [] := by
  cases l with
  | nil => simp [linesOf]
  | cons c t =>
    simp only [linesOf]
    split
    · simp
    · split <;> simp

theorem linesOf_append_nonterm (g : List Char) (x : List Char)
    (hg : ∀ c ∈ g, isLineTerm c = false) :
    linesOf (g ++ x) = (g ++ (linesOf x).headD []) :: (linesOf x).tail := by
  induction g with
  | nil =>
    simp only [List.nil_append]
    cases hx : linesOf x with
    | nil => exact absurd hx (linesOf_ne_nil x)
    | cons l ls => simp
  | cons c g ih =>
    have hc : isLineTerm c = false := hg c (List.mem_cons_self ..)
    have hrest : ∀ d ∈ g, isLineTerm d = false := fun d hd =>
      hg d (List.mem_cons_of_mem _ hd)
    simp only [List.cons_append, linesOf, hc, Bool.false_eq_true, if_false, List.append_eq,
      ih hrest]

theorem trimGo_succ (rep : List Char → List Char) (f : Nat) (c0 : Char) (u0 : List Char) :
    trimGo rep (f + 1) (c0 :: u0) =
      (match (trimStep (c0 :: u0)).2.2 with
       | [] => rep (trimStep (c0 :: u0)).1
       | t :: r2 =>
         if (trimStep (c0 :: u0)).2.1 then
           rep (trimStep (c0 :: u0)).1 ++ trimGo rep f (t :: r2)
         else rep (trimStep (c0 :: u0)).1 ++ t :: trimGo rep f r2) := rfl

theorem trimStep_g_eq (u : List Char) :
    (trimStep u).1 =
      ((u.dropWhile isJsWs).takeWhile (fun c => !isLineTerm c)) := by
  simp only [trimStep, drop_takeWhile_length]
  exact take_takeWhile_length _ _

theorem trimStep_g_nonterm (u : List Char) :
    ∀ d ∈ (trimStep u).1, isLineTerm d = false := by
  intro d hd
  rw [trimStep_g_eq] at hd
  have := List.mem_takeWhile_imp hd
  simpa using this

theorem trimStep_g_head (u : List Char) :
    ∀ ch, (trimStep u).1.head? = some ch → isJsWs ch = false := by
  intro ch hch
  rw [trimStep_g_eq] at hch
  cases hdw : u.dropWhile isJsWs with
  | nil =>
    rw [hdw] at hch
    simp at hch
  | cons d t =>
    rw [hdw, List.takeWhile_cons] at hch
    by_cases hd : (!isLineTerm d) = true
    · rw [if_pos hd] at hch
      simp only [List.head?_cons, Option.some.injEq] at hch
      rw [← hch]
      have hh : (u.dropWhile isJsWs).head? = some d := by rw [hdw]; rfl
      exact head?_dropWhile_false _ _ hh
    · rw [if_neg hd] at hch
      simp at hch

theorem trimStep_g_ne (u : List Char) (h : (trimStep u).2.2 ≠ []) : (trimStep u).1 ≠ [] := by
  intro hgnil
  apply h
  rw [trimStep_g_eq] at hgnil
  have hvnil : u.dropWhile isJsWs = [] := by
    cases hdw : u.dropWhile isJsWs with
    | nil => rfl
    | cons d t =>
      exfalso
      rw [hdw, List.takeWhile_cons] at hgnil
      by_cases hd : (!isLineTerm d) = true
      · rw [if_pos hd] at hgnil
        simp at hgnil
      · have hdterm : isLineTerm d = true := by
          cases hx : isLineTerm d with
          | true => rfl
          | false => rw [hx] at hd; simp at hd
        have hdws := lineTerm_ws hdterm
        have hh : (u.dropWhile isJsWs).head? = some d := by rw [hdw]; rfl
        have := head?_dropWhile_false _ _ hh
        rw [hdws] at this
        simp at this
  -- the whole input is whitespace: a = u.length, so v and its suffixes are empty
  show (trimStep u).2.2 = []
  simp only [trimStep]
  have hlen : (u.takeWhile isJsWs).length = u.length := by
    conv_rhs => rw [← List.takeWhile_append_dropWhile isJsWs u]
    rw [hvnil, List.append_nil]
  rw [hlen]
  have h1 : u.drop u.length = [] := List.drop_length u
  have h2 : u.drop (u.length + ((u.drop u.length).takeWhile (fun c => !isLineTerm c)).length)
      = [] := by
    apply List.drop_of_length_le
    omega
  rw [h2]
  simp

theorem lines_head_ok_append (g x : List Char) (hne : g ≠ [])
    (hgterm : ∀ d ∈ g, isLineTerm d = false)
    (hghead : ∀ ch, g.head? = some ch → isJsWs ch = false)
    (htail : ∀ line ∈ (linesOf x).tail, ∀ ch, line.head? = some ch → isJsWs ch = false) :
    ∀ line ∈ linesOf (g ++ x), ∀ ch, line.head? = some ch → isJsWs ch = false := by
  rw [linesOf_append_nonterm g x hgterm]
  intro line hline ch hch
  rcases List.mem_cons.mp hline with he | he
  · subst he
    rw [head?_append_left hne] at hch
    exact hghead ch hch
  · exact htail line he ch hch

theorem lines_head_ok_self (g : List Char)
    (hgterm : ∀ d ∈ g, isLineTerm d = false)
    (hghead : ∀ ch, g.head? = some ch → isJsWs ch = false) :
    ∀ line ∈ linesOf g, ∀ ch, line.head? = some ch → isJsWs ch = false := by
  by_cases hg : g = []
  · subst hg
    intro line hline ch hch
    simp [linesOf] at hline
    rw [hline] at hch
    simp at hch
  · have := lines_head_ok_append g [] hg hgterm hghead
      (by intro line hline; simp [linesOf] at hline)
    rwa [List.append_nil] at this

/-- No line in the image of the `/^\s*(.*)\s*$/gm` pass (with identity
group-1 replacement) begins with whitespace: the leading `\s*` of each
match absorbs it. -/
theorem trimGo_id_lines (fuel : Nat) (u : List Char) :
    ∀ line ∈ linesOf (trimGo (fun g => g) fuel u), ∀ ch, line.head? = some ch →
      isJsWs ch = false := by
  induction fuel using Nat.strong_induction_on generalizing u with
  | _ fuel ih =>
  cases fuel with
  | zero =>
    intro line hline ch hch
    simp [trimGo, linesOf] at hline
    rw [hline] at hch
    simp at hch
  | succ f =>
  cases u with
  | nil =>
    intro line hline ch hch
    simp [trimGo, linesOf] at hline
    rw [hline] at hch
    simp at hch
  | cons c0 u0 =>
  cases hvd : (trimStep (c0 :: u0)).2.2 with
  | nil =>
    have hstep : trimGo (fun g => g) (f + 1) (c0 :: u0) = (trimStep (c0 :: u0)).1 := by
      rw [trimGo_succ, hvd]
    rw [hstep]
    exact lines_head_ok_self _ (trimStep_g_nonterm _) (trimStep_g_head _)
  | cons t r2 =>
    have hstep : trimGo (fun g => g) (f + 1) (c0 :: u0) =
        (if (trimStep (c0 :: u0)).2.1 then
          (trimStep (c0 :: u0)).1 ++ trimGo (fun g => g) f (t :: r2)
        else (trimStep (c0 :: u0)).1 ++ t :: trimGo (fun g => g) f r2) := by
      rw [trimGo_succ, hvd]
    rw [hstep]
    have hgne := trimStep_g_ne (c0 :: u0) (by rw [hvd]; simp)
    by_cases hflag : (trimStep (c0 :: u0)).2.1 = true
    · rw [if_pos hflag]
      apply lines_head_ok_append _ _ hgne (trimStep_g_nonterm _) (trimStep_g_head _)
      intro line hline
      exact ih f (by omega) (t :: r2) line (List.tail_subset _ hline)
    · rw [if_neg hflag]
      apply lines_head_ok_append _ _ hgne (trimStep_g_nonterm _) (trimStep_g_head _)
      intro line hline ch hch
      cases ht : isLineTerm t with
      | true =>
        have hdec : linesOf (t :: trimGo (fun g => g) f r2) =
            [] :: linesOf (trimGo (fun g => g) f r2) := by
          simp [linesOf, ht]
        rw [hdec] at hline
        simp only [List.tail_cons] at hline
        exact ih f (by omega) r2 line hline ch hch
      | false =>
        rcases hx : linesOf (trimGo (fun g => g) f r2) with _ | ⟨hd, tl⟩
        · exact absurd hx (linesOf_ne_nil _)
        · have hdec : linesOf (t :: trimGo (fun g => g) f r2) = (t :: hd) :: tl := by
            simp [linesOf, ht, hx]
          rw [hdec] at hline
          simp only [List.tail_cons] at hline
          have hmem : line ∈ linesOf (trimGo (fun g => g) f r2) := by
            rw [hx]
            exact List.mem_cons_of_mem _ hline
          exact ih f (by omega) r2 line hmem ch hch

/-- Claim C5 (counterexample): the claim says line breaks are preserved and
every output line is trimmed of leading and trailing whitespace; in fact
`/^\s*(.*)\s*$/gm` only removes leading whitespace — the greedy `(.*)` keeps
the trailing run, so `"⠃\n⠃"` decodes to `"aa1 \naa1"`, whose first line
ends with a space — and the second `\s*` of a match consumes interior line
terminators, so `"⠃\n\n⠃"` also decodes to `"aa1 \naa1"` (one of its two
breaks is lost) and `"\n\n"` decodes to the empty string. -/
theorem c5_per_line_trim_counterexample :
    parseCantoneseBraille "⠃\n⠃" = "aa1 \naa1" ∧
      ((linesOf ("aa1 \naa1".data)).any (fun l => l.getLast? == some ' ')) = true ∧
      parseCantoneseBraille "⠃\n\n⠃" = "aa1 \naa1" ∧
      parseCantoneseBraille "\n\n" = "" := by
  refine ⟨by decide, by decide, by decide, by decide⟩

/-- Claim C5 (amended): on every line of the decoder's output the leading
whitespace is removed — no line of the returned string begins with a
whitespace character. Trailing whitespace is not removed, and line breaks
are not preserved in general (see the counterexample). -/
theorem c5_leading_trim_per_line (s : String) :
    ∀ line ∈ linesOf (parseCantoneseBraille s).data, ∀ ch, line.head? = some ch →
      isJsWs ch = false := by
  intro line hline
  unfold parseCantoneseBraille parseCantoneseBrailleL at hline
  exact trimGo_id_lines _ _ line hline

/-- Witness for C5 (amended) at a concrete input: the first output line of
decoding `"⠃\n⠃"` starts with `'a'`, which is not whitespace. -/
theorem c5_leading_trim_per_line_witness : isJsWs 'a' = false :=
  c5_leading_trim_per_line "⠃\n⠃" ("aa1 ".data) (by decide) 'a' (by decide)

/-- Claim C7: the final-only cell `'⠥'` (final `u`) with tone cell `'⠁'`
(tone 2) decodes to `"wu2"` with epenthetic initial `w`, and the single cell
`'⠗'` (final `ik`) decodes to `"ik1"` with no initial inferred, because `ik`
is in the exception set. -/
theorem c7_epenthesis_scenarios :
    parseCantoneseBraille "⠥⠁" = "wu2" ∧ parseCantoneseBraille "⠗" = "ik1" := by
  constructor
  · decide
  · decide

/-! ### C1: scoped round-trip law -/

/-- Finals that receive an epenthetic `j` at the decoder (head `y` or `i`,
except `ik` and `ing`): the encoder's `rom2jp` strips that `j` again. -/
def jStrippable (fin : String) : Bool :=
  (fin.data.head? == some 'y' || fin.data.head? == some 'i') && fin ≠ "ik" && fin ≠ "ing"

/-- Finals that receive an epenthetic `w` (head `u`, except `uk`, `ung`). -/
def wStrippable (fin : String) : Bool :=
  fin.data.head? == some 'u' && fin ≠ "uk" && fin ≠ "ung"

/-- Initial/final pairs excluded from the exact round-trip family: the
encoder strips the epenthetic-looking letter of `j` + j-strippable and
`w`/`gw`/`kw` + w-strippable romanizations, and the final `sz` decodes to a
romanization without a vowel that the encoder's syllable regex rejects. -/
def excludedA (ini fin : String) : Bool :=
  (ini == "j" && jStrippable fin)
    || ((ini == "w" || ini == "gw" || ini == "kw") && wStrippable fin)
    || fin == "sz"

/-- Every initial cell followed by every final cell (no explicit tone cell,
so the decoded tone is `1` and no historic or checked rewrite fires), minus
the excluded pairs: 986 inputs on which encode-after-decode is the identity. -/
def familyA : List String :=
  initialMap.flatMap (fun ikv => finalMap.filterMap (fun fkv =>
    if excludedA ikv.2 fkv.2 then none else some (ikv.1 ++ fkv.1)))

/-- The final's romanization ends in `p`, `t` or `k`. -/
def endsPtkS (fin : String) : Bool := finEndsPtk fin.data

/-- Inputs whose decoded syllable hits the historic-final rewrite (bare
`ang` cell with tone 4/5/6; bare `op` cell alone or with any tone cell) or
the checked-tone-4 rewrite (a p/t/k final with the tone-4 cell, with or
without an initial cell; `gw`/`kw` + `ut` excluded because the rewritten
tone-6 romanization re-encodes with the `w` stripped): 369 inputs on which
decoding is idempotent across a re-encode. -/
def familyB : List String :=
  ["⠛⠄", "⠛⠠", "⠛⠂"] ++
  ("⠍" :: (["⠀", "⠁", "⠈", "⠄", "⠠", "⠂", "⠐"].map (fun t => "⠍" ++ t))) ++
  (initialMap.flatMap (fun ikv =>
    (finalMap.filter (fun fkv => endsPtkS fkv.2)).filterMap (fun fkv =>
      if (ikv.2 == "gw" || ikv.2 == "kw") && fkv.2 == "ut" then none
      else some (ikv.1 ++ fkv.1 ++ "⠄")))) ++
  ((finalMap.filter (fun fkv => endsPtkS fkv.2)).map (fun fkv => fkv.1 ++ "⠄"))

/-- Decode-then-encode returns the input, phrased over the literal-table
clone of the encoder (equal to the real one by `parseJyutpingToBrailleL_eq`)
so the bulk check evaluates fast. -/
def roundA (x : String) : Bool :=
  parseJyutpingToBrailleLC (parseCantoneseBrailleL x.data) == some x.data

/-- Decoding the re-encoded form gives the original decoding. -/
def roundB (x : String) : Bool :=
  ((parseJyutpingToBrailleLC (parseCantoneseBrailleL x.data)).map parseCantoneseBrailleL)
    == some (parseCantoneseBrailleL x.data)

/-- Glue for the chunked bulk checks: `all` over a split list. -/
theorem all_chunk {α : Type} (p : α → Bool) (l l1 l2 : List α) (hsplit : l = l1 ++ l2)
    (h1 : l1.all p = true) (h2 : l2.all p = true) : l.all p = true := by
  subst hsplit
  rw [List.all_append, h1, h2]
  rfl

set_option maxHeartbeats 0 in
theorem famA_c0 : (familyA.take 100).all roundA = true := by decide

set_option maxHeartbeats 0 in
theorem famA_c1 : ((familyA.drop 100).take 100).all roundA = true := by decide

set_option maxHeartbeats 0 in
theorem famA_c2 : (((familyA.drop 100).drop 100).take 100).all roundA = true := by decide

set_option maxHeartbeats 0 in
theorem famA_c3 : ((((familyA.drop 100).drop 100).drop 100).take 100).all roundA = true := by decide

set_option maxHeartbeats 0 in
theorem famA_c4 : (((((familyA.drop 100).drop 100).drop 100).drop 100).take 100).all roundA = true := by decide

set_option maxHeartbeats 0 in
theorem famA_c5 : ((((((familyA.drop 100).drop 100).drop 100).drop 100).drop 100).take 100).all roundA = true := by decide

set_option maxHeartbeats 0 in
theorem famA_c6 : (((((((familyA.drop 100).drop 100).drop 100).drop 100).drop 100).drop 100).take 100).all roundA = true := by decide

set_option maxHeartbeats 0 in
theorem famA_c7 : ((((((((familyA.drop 100).drop 100).drop 100).drop 100).drop 100).drop 100).drop 100).take 100).all roundA = true := by decide

set_option maxHeartbeats 0 in
theorem famA_c8 : (((((((((familyA.drop 100).drop 100).drop 100).drop 100).drop 100).drop 100).drop 100).drop 100).take 100).all roundA = true := by decide

set_option maxHeartbeats 0 in
theorem famA_c9 : (((((((((familyA.drop 100).drop 100).drop 100).drop 100).drop 100).drop 100).drop 100).drop 100).drop 100).all roundA = true := by decide

theorem famA_check : familyA.all roundA = true :=
  all_chunk _ _ _ _ (List.take_append_drop 100 familyA).symm famA_c0 <|
  all_chunk _ _ _ _ (List.take_append_drop 100 (familyA.drop 100)).symm famA_c1 <|
  all_chunk _ _ _ _ (List.take_append_drop 100 ((familyA.drop 100).drop 100)).symm famA_c2 <|
  all_chunk _ _ _ _ (List.take_append_drop 100 (((familyA.drop 100).drop 100).drop 100)).symm famA_c3 <|
  all_chunk _ _ _ _ (List.take_append_drop 100 ((((familyA.drop 100).drop 100).drop 100).drop 100)).symm famA_c4 <|
  all_chunk _ _ _ _ (List.take_append_drop 100 (((((familyA.drop 100).drop 100).drop 100).drop 100).drop 100)).symm famA_c5 <|
  all_chunk _ _ _ _ (List.take_append_drop 100 ((((((familyA.drop 100).drop 100).drop 100).drop 100).drop 100).drop 100)).symm famA_c6 <|
  all_chunk _ _ _ _ (List.take_append_drop 100 (((((((familyA.drop 100).drop 100).drop 100).drop 100).drop 100).drop 100).drop 100)).symm famA_c7 <|
  all_chunk _ _ _ _ (List.take_append_drop 100 ((((((((familyA.drop 100).drop 100).drop 100).drop 100).drop 100).drop 100).drop 100).drop 100)).symm famA_c8 <|
  famA_c9

set_option maxHeartbeats 0 in
theorem famB_c0 : (familyB.take 100).all roundB = true := by decide

set_option maxHeartbeats 0 in
theorem famB_c1 : ((familyB.drop 100).take 100).all roundB = true := by decide

set_option maxHeartbeats 0 in
theorem famB_c2 : (((familyB.drop 100).drop 100).take 100).all roundB = true := by decide

set_option maxHeartbeats 0 in
theorem famB_c3 : (((familyB.drop 100).drop 100).drop 100).all roundB = true := by decide

theorem famB_check : familyB.all roundB = true :=
  all_chunk _ _ _ _ (List.take_append_drop 100 familyB).symm famB_c0 <|
  all_chunk _ _ _ _ (List.take_append_drop 100 (familyB.drop 100)).symm famB_c1 <|
  all_chunk _ _ _ _ (List.take_append_drop 100 ((familyB.drop 100).drop 100)).symm famB_c2 <|
  famB_c3

/-- Claim C1 (as amended): the round-trip law holds on the stated families.
For every two-cell initial+final input outside the excluded pairs
(`familyA`), encoding the decoding returns the input exactly; for every
input whose decoded syllable hits the historic-final or checked-tone-4
rewrite (`familyB`), decoding the re-encoding of the decoding returns the
decoding. The claim's original first clause, quantified over all inputs
whose syllables avoid the rewrites, is false: see the counterexample. -/
theorem c1_scoped_roundtrip :
    (∀ x ∈ familyA, parseJyutpingToBraille (parseCantoneseBraille x) = some x) ∧
    (∀ x ∈ familyB,
      (parseJyutpingToBraille (parseCantoneseBraille x)).map parseCantoneseBraille
        = some (parseCantoneseBraille x)) := by
  constructor
  · intro x hx
    have h := List.all_eq_true.mp famA_check x hx
    simp only [roundA, beq_iff_eq] at h
    have hL : parseJyutpingToBrailleL (parseCantoneseBrailleL x.data) = some x.data := by
      rw [parseJyutpingToBrailleL_eq]; exact h
    show (parseJyutpingToBrailleL (parseCantoneseBrailleL x.data)).map String.mk = some x
    rw [hL]
    rfl
  · intro x hx
    have h := List.all_eq_true.mp famB_check x hx
    simp only [roundB, beq_iff_eq] at h
    cases he : parseJyutpingToBrailleLC (parseCantoneseBrailleL x.data) with
    | none => rw [he] at h; simp at h
    | some y =>
      rw [he] at h
      have h2 : parseCantoneseBrailleL y = parseCantoneseBrailleL x.data := by
        simpa using h
      have hL : parseJyutpingToBrailleL (parseCantoneseBrailleL x.data) = some y := by
        rw [parseJyutpingToBrailleL_eq]; exact he
      show ((parseJyutpingToBrailleL (parseCantoneseBrailleL x.data)).map String.mk).map
          parseCantoneseBraille = some (String.mk (parseCantoneseBrailleL x.data))
      rw [hL]
      show some (parseCantoneseBraille (String.mk y)) = some (String.mk (parseCantoneseBrailleL x.data))
      rw [show parseCantoneseBraille (String.mk y) = String.mk (parseCantoneseBrailleL y) from rfl, h2]

/-- Witness for C1 at the concrete member `⠏⠃` (`b` + `aa`) of the exact
family: it decodes to `baa1` and encodes back to itself. -/
theorem c1_scoped_roundtrip_witness :
    "⠏⠃" ∈ familyA ∧ parseJyutpingToBraille (parseCantoneseBraille "⠏⠃") = some "⠏⠃" :=
  ⟨by decide, c1_scoped_roundtrip.1 "⠏⠃" (by decide)⟩

/-- Counterexample to C1 as stated: the single final cell `⠃` decodes to
`aa1`, which hits no historic-final or checked-tone-4 rewrite, yet the
encoder emits a tone-1 cell for the initial-less syllable, so
encode(decode(`⠃`)) is `⠃⠀`, not the original input. -/
theorem c1_roundtrip_counterexample :
    parseCantoneseBraille "⠃" = "aa1" ∧
    parseJyutpingToBraille "aa1" = some "⠃⠀" ∧ ("⠃⠀" : String) ≠ "⠃" := by
  refine ⟨by decide, by decide, by decide⟩


end B2J
